import Mathlib

/-!
Shallow embedding of the chapter-import and reader-preference logic of the
novel-reader repository: the text normalizer and chapter segmenter of the
Admin page, the chunked batch-upsert of the data layer (db.ts), and the
preference/progress reconciliation of the Reader page.  Strings are modelled
as Lean strings (lists of characters); JavaScript regular-expression
replacements are modelled by explicit scanning functions that follow the
engine's leftmost-match, greedy-with-backtracking discipline for the concrete
patterns appearing in the source.
-/

namespace ThoRen

/-! ### Character classes (JavaScript) -/

/-- JavaScript whitespace: the set matched by the whitespace escape in
regular expressions and removed by trimming (tab through carriage return,
space, no-break space, Ogham space mark, the U+2000 block, line and
paragraph separators, narrow no-break space, medium mathematical space,
ideographic space, byte-order mark). -/
def isWS (c : Char) : Bool :=
  (9 ≤ c.toNat && c.toNat ≤ 13) || c.toNat == 32 || c.toNat == 0xA0 ||
  c.toNat == 0x1680 || (0x2000 ≤ c.toNat && c.toNat ≤ 0x200A) ||
  c.toNat == 0x2028 || c.toNat == 0x2029 || c.toNat == 0x202F ||
  c.toNat == 0x205F || c.toNat == 0x3000 || c.toNat == 0xFEFF

/-- ASCII decimal digit, the class matched by the digit escape. -/
def isDigitC (c : Char) : Bool := 48 ≤ c.toNat && c.toNat ≤ 57

/-- Space or tab: the bracket class of the trailing-whitespace rule of
normalizeText. -/
def isST (c : Char) : Bool := c == ' ' || c == '\t'

/-- The no-break space character. -/
def nbsp : Char := ' '

/-! ### normalizeText (Admin page)

The source applies, in order: CRLF to LF, NBSP to space, removal of
space/tab runs directly before a newline, collapse of three or more
consecutive newlines to two, and an outer trim. -/

/-- Stage 1: global replacement of CRLF by LF, scanning left to right.
Shared with the pre-processing step of splitChapters. -/
def r1 : List Char → List Char
  | [] => []
  | '\r' :: '\n' :: rest => '\n' :: r1 rest
  | c :: rest => c :: r1 rest

/-- Stage 2: every no-break space becomes a plain space. -/
def r2 (l : List Char) : List Char := l.map fun c => if c = nbsp then ' ' else c

/-- Stage 3 worker: `pend` holds (reversed) the run of spaces/tabs read so
far; a run directly followed by a newline is dropped, otherwise it is kept.
This reproduces the global replacement of a space/tab run before LF by LF. -/
def r3aux (pend : List Char) : List Char → List Char
  | [] => pend.reverse
  | c :: rest =>
    if isST c then r3aux (c :: pend) rest
    else if c = '\n' then '\n' :: r3aux [] rest
    else pend.reverse ++ c :: r3aux [] rest

/-- Stage 3: remove space/tab runs standing directly before a newline. -/
def r3 (l : List Char) : List Char := r3aux [] l

/-- Newlines emitted for a pending newline run of length `k` (a maximal run
of three or more is collapsed to exactly two). -/
def emitNL (k : Nat) : List Char := List.replicate (if 3 ≤ k then 2 else k) '\n'

/-- Stage 4 worker: `k` counts the pending newline run. -/
def r4aux (k : Nat) : List Char → List Char
  | [] => emitNL k
  | c :: rest =>
    if c = '\n' then r4aux (k + 1) rest
    else emitNL k ++ c :: r4aux 0 rest

/-- Stage 4: collapse runs of three or more newlines to exactly two. -/
def r4 (l : List Char) : List Char := r4aux 0 l

/-- Drop trailing JavaScript whitespace. -/
def trimEnd (l : List Char) : List Char := (l.reverse.dropWhile isWS).reverse

/-- JavaScript trim: drop leading and trailing whitespace. -/
def jsTrim (l : List Char) : List Char := trimEnd (l.dropWhile isWS)

/-- normalizeText from the Admin page: CRLF to LF, NBSP to space, trailing
space/tab runs before newlines removed, runs of three or more newlines
collapsed to two, then trimmed. -/
def normalizeText (s : String) : String := ⟨jsTrim (r4 (r3 (r2 (r1 s.data))))⟩

/-- Invariant: no space/tab stands directly before a newline (what stage 3
guarantees about its output). -/
def noSTLF (l : List Char) : Prop :=
  List.Chain' (fun a b => ¬(isST a = true ∧ b = '\n')) l

/-- Invariant: no three consecutive newlines (what stage 4 guarantees about
its output). -/
def noLF3 (l : List Char) : Prop :=
  ∀ i : Nat, ¬(l[i]? = some '\n' ∧ l[i + 1]? = some '\n' ∧ l[i + 2]? = some '\n')

/-- Length of the leading newline run. -/
def headNLs : List Char → Nat
  | '\n' :: rest => headNLs rest + 1
  | _ => 0

/-! ### Reader preferences and progress (Reader page, userSync) -/

/-- In-memory/persisted reader preferences record (theme, font, fontSize,
optional updatedAt stamp). -/
structure ReaderPrefs where
  theme : String
  font : String
  fontSize : Int
  updatedAt : Option Int
deriving DecidableEq, Repr

/-- Reader progress record (last chapter id, optional updatedAt stamp). -/
structure ReaderProgress where
  lastChapterId : String
  updatedAt : Option Int
deriving DecidableEq, Repr

/-- clamp from Reader: the maximum of `lo` and the minimum of `hi` and `n`. -/
def clamp (n lo hi : Int) : Int := max lo (min hi n)

/-- The record written to the device-local cache by the save-preferences
effect of Reader: fontSize is clamped to [14, 26] and updatedAt is stamped
with the current time. -/
def savePrefsLocalPayload (theme font : String) (fontSize now : Int) : ReaderPrefs :=
  { theme := theme, font := font, fontSize := clamp fontSize 14 26, updatedAt := some now }

/-- The record written to the remote per-user store on the same save path:
the Reader passes the clamped fontSize to savePrefs, which stamps its own
updatedAt with the current time. -/
def savePrefsRemotePayload (theme font : String) (fontSize now : Int) : ReaderPrefs :=
  { theme := theme, font := font, fontSize := clamp fontSize 14 26, updatedAt := some now }

/-- The value-carrying part of a preferences record (everything except the
timestamp). -/
def prefsPayload (p : ReaderPrefs) : String × String × Int :=
  (p.theme, p.font, p.fontSize)

/-- Post-state of the one-shot preference reconciliation run at sign-in
(Reader, merge effect): given the local cached copy and the remote stored
copy, returns the new contents of (local cache, remote store).  The best
copy is the local one when the remote is absent, the remote one when the
local is absent, and otherwise the one with the larger updatedAt (missing
stamps count as 0), ties going to the local copy.  When the local copy wins
it is pushed to the remote store with a fresh updatedAt stamp; when the
remote copy wins it is written verbatim to the local cache. -/
def reconcilePrefs (lo ro : Option ReaderPrefs) (now : Int) :
    Option ReaderPrefs × Option ReaderPrefs :=
  match lo, ro with
  | none, none => (none, none)
  | some l, none =>
    (some l, some { theme := l.theme, font := l.font, fontSize := l.fontSize,
                    updatedAt := some now })
  | none, some r => (some r, some r)
  | some l, some r =>
    if r.updatedAt.getD 0 ≤ l.updatedAt.getD 0 then
      (some l, some { theme := l.theme, font := l.font, fontSize := l.fontSize,
                      updatedAt := some now })
    else (some r, some r)

/-- Post-state of the one-shot progress reconciliation run at sign-in.  The
best copy is selected exactly as for preferences, but the store writes (and
the navigation) are guarded by the truthiness of the winning lastChapterId:
when it is the empty string, neither store is written. -/
def reconcileProgress (lo ro : Option ReaderProgress) (now : Int) :
    Option ReaderProgress × Option ReaderProgress :=
  match lo, ro with
  | none, none => (none, none)
  | some l, none =>
    if l.lastChapterId ≠ "" then
      (some l, some { lastChapterId := l.lastChapterId, updatedAt := some now })
    else (some l, none)
  | none, some r =>
    if r.lastChapterId ≠ "" then (some r, some r) else (none, some r)
  | some l, some r =>
    if r.updatedAt.getD 0 ≤ l.updatedAt.getD 0 then
      if l.lastChapterId ≠ "" then
        (some l, some { lastChapterId := l.lastChapterId, updatedAt := some now })
      else (some l, some r)
    else
      if r.lastChapterId ≠ "" then (some r, some r) else (some l, some r)

/-- The winning copy in the both-present case, as the specification words
it: the strictly greater updatedAt wins and equal stamps resolve to the
local copy. -/
def prefsWinner (l r : ReaderPrefs) : ReaderPrefs :=
  if l.updatedAt.getD 0 > r.updatedAt.getD 0 then l
  else if r.updatedAt.getD 0 > l.updatedAt.getD 0 then r
  else l

/-- The winning progress copy in the both-present case, same rule. -/
def progressWinner (l r : ReaderProgress) : ReaderProgress :=
  if l.updatedAt.getD 0 > r.updatedAt.getD 0 then l
  else if r.updatedAt.getD 0 > l.updatedAt.getD 0 then r
  else l

/-! ### Chunked batch upsert (db.ts) -/

/-- Chapter record as handed to the store adapter by the Admin import. -/
structure ChapterIn where
  id : String
  title : String
  content : String
deriving DecidableEq, Repr

/-- Each chapter contributes two write operations (meta + content). -/
def OPS_PER_CHAPTER : Nat := 2

/-- Conservative cap on operations per atomic batch. -/
def MAX_OPS : Nat := 450

/-- Chapters per chunk: at least one, at most MAX_OPS / OPS_PER_CHAPTER. -/
def CHUNK_SIZE : Nat := max 1 (MAX_OPS / OPS_PER_CHAPTER)

/-- Loop of batchUpsertChapters, one entry per committed chunk: the number
of chapters in the chunk's slice, paired with whether this chunk's batch
also sets the parent story record (true exactly on the final iteration,
where the slice reaches the end of the list).  The fuel argument only feeds
the recursion; the initial call supplies enough for every iteration. -/
def batchLoop : Nat → List ChapterIn → List (Nat × Bool)
  | _, [] => []
  | 0, _ => []
  | fuel + 1, chapters =>
    if chapters.length ≤ CHUNK_SIZE then [(chapters.length, true)]
    else (CHUNK_SIZE, false) :: batchLoop fuel (chapters.drop CHUNK_SIZE)

/-- Commits performed by batchUpsertChapters for a chapter list. -/
def batchCommits (chapters : List ChapterIn) : List (Nat × Bool) :=
  batchLoop chapters.length chapters

/-! ### splitChapters (Admin page)

The heading regex is, verbatim: group (start-of-line or LF), whitespace run,
keyword "chapter" or "chương" (case-insensitive), whitespace (one or more),
digits (one or more, captured), whitespace run, optional separator from
{colon, period, hyphen}, whitespace run, captured rest-of-line, whitespace
run, end-of-line — global and multiline.  The scanning functions below
implement the engine's leftmost-match discipline for exactly this pattern;
each greedy piece is deterministic because backtracking it can never turn a
failure into a success (runs of whitespace/digits end only where the next
piece can start). -/

/-- Simple case folding for the characters relevant to the two keywords:
ASCII upper-case letters and the Vietnamese letters in "chương". -/
def foldC (c : Char) : Char :=
  if 65 ≤ c.toNat && c.toNat ≤ 90 then Char.ofNat (c.toNat + 32)
  else if c.toNat = 0x1AF then Char.ofNat 0x1B0
  else if c.toNat = 0x1A0 then Char.ofNat 0x1A1
  else c

/-- Strip a (lower-case) keyword from the front of `s`, case-insensitively;
returns the rest on success. -/
def stripKwCI : List Char → List Char → Option (List Char)
  | [], s => some s
  | _ :: _, [] => none
  | p :: ps, c :: cs => if foldC c = p then stripKwCI ps cs else none

/-- Match the keyword alternation "chapter" or "chương" at the front of `s`;
returns (consumed length, rest). -/
def matchKeyword (s : List Char) : Option (Nat × List Char) :=
  match stripKwCI "chapter".data s with
  | some rest => some (7, rest)
  | none =>
    match stripKwCI "chương".data s with
    | some rest => some (6, rest)
    | none => none

/-- Separator class of the heading regex: colon, period or hyphen. -/
def isSep (c : Char) : Bool := c == ':' || c == '.' || c == '-'

/-- Length consumed by the trailing whitespace-then-end-of-line piece of the
heading regex, given the rest of the input after the captured title (which
is empty or starts with LF): the greedy whitespace run is consumed in full
when it reaches the end of the input, otherwise backtracked to the longest
prefix that stops right before a LF. -/
def trailingWSLen (s8 : List Char) : Nat :=
  let w := s8.takeWhile isWS
  if w.length = s8.length then s8.length
  else w.length - 1 - (w.reverse.takeWhile (fun c => c != '\n')).length

/-- Attempt the heading regex body (everything after the start-of-line/LF
group) at the front of `s`.  On success returns (consumed length, captured
digit run, captured raw title). -/
def matchBody (s : List Char) : Option (Nat × List Char × List Char) :=
  let ws1 := s.takeWhile isWS
  let s1 := s.dropWhile isWS
  match matchKeyword s1 with
  | none => none
  | some (kwLen, s2) =>
    let ws2 := s2.takeWhile isWS
    if ws2.isEmpty then none
    else
      let s3 := s2.dropWhile isWS
      let ds := s3.takeWhile isDigitC
      if ds.isEmpty then none
      else
        let s4 := s3.dropWhile isDigitC
        let ws3 := s4.takeWhile isWS
        let s5 := s4.dropWhile isWS
        let sepLen : Nat := match s5 with
          | c :: _ => if isSep c then 1 else 0
          | [] => 0
        let s6 := s5.drop sepLen
        let ws4 := s6.takeWhile isWS
        let s7 := s6.dropWhile isWS
        let title := s7.takeWhile (fun c => c != '\n')
        let s8 := s7.dropWhile (fun c => c != '\n')
        some (ws1.length + kwLen + ws2.length + ds.length + ws3.length + sepLen
              + ws4.length + title.length + trailingWSLen s8, ds, title)

/-- Scan a suffix of the subject for the leftmost heading match.  `atLS` is
whether the current position is at the start of a line (position 0 or right
after a LF); the start-of-line alternative of the first group is tried
before the LF-consuming alternative, as the engine does.  On success returns
(offset of the match from the scan start, total match length, digit capture,
raw title capture). -/
def scanRel : List Char → Bool → Option (Nat × Nat × List Char × List Char)
  | [], _ => none
  | c :: rest, atLS =>
    match (if atLS then matchBody (c :: rest) else none) with
    | some (len, ds, ti) => some (0, len, ds, ti)
    | none =>
      match (if c = '\n' then matchBody rest else none) with
      | some (len, ds, ti) => some (0, len + 1, ds, ti)
      | none =>
        (fun p => (p.1 + 1, p.2)) <$> scanRel rest (c == '\n')

/-- Title clean-up applied to the raw title capture: trim, erase the string
when it consists only of separator characters, strip one trailing block of
whitespace-then-separators, trim again. -/
def cleanTitle (l : List Char) : List Char :=
  let t1 := jsTrim l
  let t2 := if !t1.isEmpty && t1.all isSep then [] else t1
  let r := t2.reverse
  let t3 := if (r.takeWhile isSep).isEmpty then t2
            else ((r.dropWhile isSep).dropWhile isWS).reverse
  jsTrim t3

/-- A recorded heading match: absolute index of the match in the subject,
length of the whole match, the digit capture (the chapter number text) and
the cleaned title. -/
structure HeadMatch where
  index : Nat
  len : Nat
  chapNo : List Char
  title : List Char
deriving DecidableEq, Repr

/-- The exec loop: find successive non-overlapping matches left to right,
resuming each scan where the previous match ended.  The fuel only bounds
the recursion; the initial call supplies more than the subject length, which
is enough because every match consumes at least one character. -/
def findAllAux : Nat → List Char → Nat → Bool → List HeadMatch
  | 0, _, _, _ => []
  | fuel + 1, s, i, atLS =>
    match scanRel s atLS with
    | none => []
    | some (o, len, ds, ti) =>
      { index := i + o, len := len, chapNo := ds, title := cleanTitle ti } ::
        findAllAux fuel (s.drop (o + len)) (i + o + len) (s.get? (o + len - 1) == some '\n')

/-- All heading matches of the subject, in order. -/
def findAll (t : List Char) : List HeadMatch := findAllAux (t.length + 1) t 0 true

/-! The content of each chapter removes the first heading-like line of its
chunk: replace of the regex (line start, any characters, keyword, whitespace
one-or-more, digits, any characters, line end — case-insensitive, multiline,
non-global) by the empty string. -/

/-- Attempt the heading-removal pattern after its leading any-characters
piece: keyword, whitespace run (one or more), digit run (one or more), rest
of line.  Returns the consumed length. -/
def hrAfterKw (u : List Char) : Option Nat :=
  match matchKeyword u with
  | none => none
  | some (kwLen, v) =>
    let w1 := v.takeWhile isWS
    if w1.isEmpty then none
    else
      let v2 := v.dropWhile isWS
      let d := v2.takeWhile isDigitC
      if d.isEmpty then none
      else
        let v3 := v2.dropWhile isDigitC
        let rest := v3.takeWhile (fun c => c != '\n')
        some (kwLen + w1.length + d.length + rest.length)

/-- Greedy any-characters before the keyword: try the longest prefix of the
current line first, backtracking one character at a time. -/
def hrTryK (s : List Char) : Nat → Option Nat
  | 0 => hrAfterKw s
  | k + 1 =>
    match hrAfterKw (s.drop (k + 1)) with
    | some n => some (k + 1 + n)
    | none => hrTryK s k

/-- Attempt the heading-removal pattern at a line start. -/
def hrAt (s : List Char) : Option Nat :=
  hrTryK s (s.takeWhile (fun c => c != '\n')).length

/-- Scan successive line starts for the leftmost heading-removal match;
returns (absolute start, length).  Fuel as in findAllAux. -/
def hrScanAux : Nat → List Char → Option (Nat × Nat)
  | 0, _ => none
  | fuel + 1, s =>
    match hrAt s with
    | some n => some (0, n)
    | none =>
      let line := s.takeWhile (fun c => c != '\n')
      if s.length ≤ line.length then none
      else (fun p => (line.length + 1 + p.1, p.2)) <$> hrScanAux fuel (s.drop (line.length + 1))

/-- Remove the first heading-like line span from a chunk (the non-global
replace by the empty string); the chunk is unchanged when no line matches. -/
def removeHeadingLine (chunk : List Char) : List Char :=
  match hrScanAux (chunk.length + 1) chunk with
  | none => chunk
  | some (a, n) => chunk.take a ++ chunk.drop (a + n)

/-- Pre-processing of splitChapters: CRLF to LF, then trim. -/
def prep (text : String) : List Char := jsTrim (r1 text.data)

/-- Build one chapter record from a match and the line range ending at
`endIdx` (the next match's index, or the end of the subject). -/
def mkChapter (t : List Char) (m : HeadMatch) (endIdx : Nat) : ChapterIn :=
  let chunk := jsTrim ((t.drop m.index).take (endIdx - m.index))
  let id := String.mk m.chapNo
  let title := if m.title.isEmpty then "Chapter " ++ id
               else "Chapter " ++ id ++ ": " ++ String.mk m.title
  let content := jsTrim (removeHeadingLine chunk)
  { id := id, title := title,
    content := if content.isEmpty then String.mk chunk else String.mk content }

/-- Chapters from the match list: each chunk runs from its match's index to
the next match's index (the last one to the end of the subject). -/
def buildChapters (t : List Char) : List HeadMatch → List ChapterIn
  | [] => []
  | m :: rest =>
    let endIdx := match rest with
      | m2 :: _ => m2.index
      | [] => t.length
    mkChapter t m endIdx :: buildChapters t rest

/-- splitChapters from the Admin page: normalize line endings and trim, find
all heading matches, fall back to a single chapter "1" when there is none,
otherwise cut the text at the match indices. -/
def splitChapters (text : String) : List ChapterIn :=
  let t := prep text
  let ms := findAll t
  if ms.isEmpty then [{ id := "1", title := "Chapter 1", content := String.mk t }]
  else buildChapters t ms

/-- Whether the segmenter detects at least one heading in the given text. -/
def detectsHeading (s : String) : Bool := !(findAll (prep s)).isEmpty

/-- Heading pattern as the specification words it, for comparison with the
code's matcher: after trimming, the line begins with one of the
case-insensitive keywords, followed by whitespace and a (maximal) run of
decimal digits whose length is bounded by `cap` when one is given;
separator and trailing free text are unconstrained.  Modelled from the
specification, not from the source. -/
def specHeadingLine (cap : Option Nat) (l : String) : Bool :=
  let t := jsTrim l.data
  match matchKeyword t with
  | none => false
  | some (_, r) =>
    let ws := r.takeWhile isWS
    let r2 := r.dropWhile isWS
    let ds := r2.takeWhile isDigitC
    !ws.isEmpty && !ds.isEmpty &&
      (match cap with
       | none => true
       | some k => decide (ds.length ≤ k))

/-! ### Admin import accounting and the persisted store (Admin + db.ts) -/

/-- ASCII lower-casing (plus the two Vietnamese letters of the keyword),
used for the file-extension check. -/
def toLowerStr (s : String) : String := ⟨s.data.map foldC⟩

/-- The lower-cased text after the last dot of a file name (split on dots,
take the last part). -/
def fileExt (name : String) : List Char :=
  ((toLowerStr name).data.splitOn '.').getLastD []

/-- Import accounting of handleFiles: files with a legacy ".doc" extension
or any non-".docx" extension are skipped, as are files whose extracted text
is empty; each remaining file contributes one imported file and the length
of its splitChapters result.  A file is modelled as (name, extracted text). -/
def importAccount (files : List (String × String)) : Nat × Nat :=
  files.foldl
    (fun acc f =>
      let ext := fileExt f.1
      if ext = "doc".data then acc
      else if ext ≠ "docx".data then acc
      else if f.2 = "" then acc
      else (acc.1 + 1, acc.2 + (splitChapters f.2).length))
    (0, 0)

/-- The user-visible message set after an import run: a fixed failure note
when no file was imported, otherwise the success summary interpolating the
file and chapter counts. -/
def importMsg (files : List (String × String)) : String :=
  let fc := importAccount files
  if fc.1 = 0 then "❌ Không có file .docx hợp lệ để import (file .doc không hỗ trợ)."
  else "✅ Import xong: " ++ toString fc.1 ++ " file • " ++ toString fc.2 ++ " chapter"

/-- Persisted chapter document (content collection): id, numeric order key,
title, content, updatedAt. -/
structure ChapterDoc where
  id : String
  num : Int
  title : String
  content : String
  updatedAt : Int
deriving DecidableEq, Repr

/-- The numeric order key: the JavaScript coercion of the id to a number,
with 0 substituted for empty or non-numeric ids (Number(id) or-else 0);
chapter ids produced by the segmenter are plain digit runs, for which the
coercion is decimal parsing. -/
def jsNumberOr0 (s : String) : Int :=
  if s ≠ "" ∧ s.data.all isDigitC then
    (s.data.foldl (fun a c => a * 10 + (c.toNat - 48)) 0 : Nat)
  else 0

/-- A keyed document store (one collection). -/
def Store : Type := String → Option ChapterDoc

/-- A single keyed set with full field coverage (overwrite at the key). -/
def setDoc (st : Store) (k : String) (d : ChapterDoc) : Store :=
  fun q => if q = k then some d else st q

/-- The content-collection document written for one chapter by
batchUpsertChapters. -/
def docOf (now : Int) (ch : ChapterIn) : ChapterDoc :=
  { id := ch.id, num := jsNumberOr0 ch.id, title := ch.title,
    content := ch.content, updatedAt := now }

/-- Effect of batchUpsertChapters on the content collection: the chapters'
set operations are applied in list order (chunking does not change the
order), each keyed by the chapter's id. -/
def upsertAll (now : Int) (chs : List ChapterIn) (st : Store) : Store :=
  chs.foldl (fun acc ch => setDoc acc ch.id (docOf now ch)) st

/-! ### Theorems -/

theorem CHUNK_SIZE_eq : CHUNK_SIZE = 225 := rfl

theorem batchLoop_step (fuel : Nat) (chs : List ChapterIn) (h : chs ≠ []) :
    batchLoop (fuel + 1) chs =
      if chs.length ≤ CHUNK_SIZE then [(chs.length, true)]
      else (CHUNK_SIZE, false) :: batchLoop fuel (chs.drop CHUNK_SIZE) := by
  cases chs with
  | nil => exact absurd rfl h
  | cons c rest => rfl

theorem batchLoop_gt (fuel : Nat) (chs : List ChapterIn) (h : 225 < chs.length) :
    batchLoop (fuel + 1) chs = (225, false) :: batchLoop fuel (chs.drop 225) := by
  have hne : chs ≠ [] := by
    intro e; rw [e] at h; simp at h
  rw [batchLoop_step fuel chs hne, CHUNK_SIZE_eq, if_neg (by omega)]

theorem batchLoop_le (fuel : Nat) (chs : List ChapterIn) (h0 : chs ≠ [])
    (h : chs.length ≤ 225) :
    batchLoop (fuel + 1) chs = [(chs.length, true)] := by
  rw [batchLoop_step fuel chs h0, CHUNK_SIZE_eq, if_pos h]

/-- C6: for a list of 1,000 chapters, with the per-chunk cap of 450
operations at 2 operations per chapter (225 chapters per chunk),
batch-upsert commits exactly 5 chunks (of 225, 225, 225, 225 and 100
chapters), and only the final chunk's commit also writes the parent story's
updatedAt. -/
theorem batch_upsert_chunking_1000 (chs : List ChapterIn) (h : chs.length = 1000) :
    batchCommits chs = [(225, false), (225, false), (225, false), (225, false), (100, true)] := by
  have l1 : (chs.drop 225).length = 775 := by simp [h]
  have l2 : ((chs.drop 225).drop 225).length = 550 := by simp [h]
  have l3 : (((chs.drop 225).drop 225).drop 225).length = 325 := by simp [h]
  have l4 : ((((chs.drop 225).drop 225).drop 225).drop 225).length = 100 := by simp [h]
  have hne4 : (((chs.drop 225).drop 225).drop 225).drop 225 ≠ [] := by
    intro e; rw [e] at l4; simp at l4
  rw [batchCommits, h]
  rw [show (1000 : Nat) = 999 + 1 by norm_num, batchLoop_gt 999 chs (by omega)]
  rw [show (999 : Nat) = 998 + 1 by norm_num, batchLoop_gt 998 _ (by omega)]
  rw [show (998 : Nat) = 997 + 1 by norm_num, batchLoop_gt 997 _ (by omega)]
  rw [show (997 : Nat) = 996 + 1 by norm_num, batchLoop_gt 996 _ (by omega)]
  rw [show (996 : Nat) = 995 + 1 by norm_num, batchLoop_le 995 _ hne4 (by omega), l4]

/-- C6 witness: a concrete list of 1,000 chapters. -/
theorem batch_upsert_chunking_1000_witness :
    (List.replicate 1000 ({ id := "1", title := "t", content := "c" } : ChapterIn)).length = 1000 ∧
    batchCommits (List.replicate 1000 ({ id := "1", title := "t", content := "c" } : ChapterIn))
      = [(225, false), (225, false), (225, false), (225, false), (100, true)] :=
  ⟨by rw [List.length_replicate],
   batch_upsert_chunking_1000 _ (by rw [List.length_replicate])⟩

/-- C10: every preferences record persisted by the save path — to the
device-local cache and to the remote store — has its fontSize clamped into
[14, 26], regardless of the in-memory fontSize at save time. -/
theorem font_size_bound_on_save (theme font : String) (fontSize now : Int) :
    (14 ≤ (savePrefsLocalPayload theme font fontSize now).fontSize ∧
     (savePrefsLocalPayload theme font fontSize now).fontSize ≤ 26) ∧
    (14 ≤ (savePrefsRemotePayload theme font fontSize now).fontSize ∧
     (savePrefsRemotePayload theme font fontSize now).fontSize ≤ 26) := by
  simp only [savePrefsLocalPayload, savePrefsRemotePayload, clamp]
  omega

/-- C2 counterexample: the heading "Chapter 007: Dawn" yields the chapter id
"007", not "7" — the digit run is used verbatim, never parsed and
re-stringified. -/
theorem chapter_id_not_canonicalized :
    ((splitChapters "Chapter 007: Dawn").map fun c => c.id) = ["007"] ∧ "007" ≠ "7" := by
  exact ⟨by decide, by decide⟩

/-- C2 amended: the digit run of a heading is used verbatim as the chapter
id (leading zeros kept); "Chapter 007: Dawn" yields id "007" and title
"Chapter 007: Dawn". -/
theorem chapter_id_verbatim :
    splitChapters "Chapter 007: Dawn"
      = [{ id := "007", title := "Chapter 007: Dawn", content := "Chapter 007: Dawn" }] := by
  decide

/-- C3 counterexample: for heading "Chapter 3" followed by "The Return",
the produced chapter's content is exactly the borrowed line — the line
adopted as the title is NOT excluded from the content. -/
theorem borrowed_title_line_not_excluded :
    ((splitChapters "Chapter 3\nThe Return").map fun c => c.content) = ["The Return"] := by
  decide

/-- C3 amended: heading "Chapter 3" immediately followed by non-heading
line "The Return" yields title "Chapter 3: The Return" (the following line
is adopted as the inline title because the heading regex's greedy
whitespace crosses the newline), but that line remains the chapter's
content — it is not excluded. -/
theorem title_borrowing_keeps_line_in_content :
    splitChapters "Chapter 3\nThe Return"
      = [{ id := "3", title := "Chapter 3: The Return", content := "The Return" }] := by
  decide

/-- C4 counterexample: a heading with a run of six digits is detected by
the segmenter although the claimed pattern (1 to 5 digits) rejects it. -/
theorem heading_digit_run_unbounded :
    detectsHeading "Chapter 123456" = true ∧
    specHeadingLine (some 5) "Chapter 123456" = false := by
  exact ⟨by decide, by decide⟩

theorem head_dropWhile_false (p : Char → Bool) :
    ∀ (l : List Char) (c : Char), (l.dropWhile p).head? = some c → p c = false := by
  intro l
  induction l with
  | nil => intro c h; simp at h
  | cons a rest ih =>
    intro c h
    by_cases hp : p a
    · rw [List.dropWhile_cons_of_pos hp] at h
      exact ih c h
    · rw [List.dropWhile_cons_of_neg hp] at h
      simp only [List.head?_cons, Option.some.injEq] at h
      subst h
      simpa using hp

theorem trimEnd_append (l : List Char) :
    l = trimEnd l ++ (l.reverse.takeWhile isWS).reverse := by
  calc l = l.reverse.reverse := (List.reverse_reverse l).symm
  _ = (l.reverse.takeWhile isWS ++ l.reverse.dropWhile isWS).reverse := by
      rw [List.takeWhile_append_dropWhile]
  _ = (l.reverse.dropWhile isWS).reverse ++ (l.reverse.takeWhile isWS).reverse := by
      rw [List.reverse_append]
  _ = trimEnd l ++ (l.reverse.takeWhile isWS).reverse := rfl

theorem jsTrim_sublist (l : List Char) : List.Sublist (jsTrim l) l := by
  unfold jsTrim trimEnd
  have h1 : List.Sublist ((l.dropWhile isWS).reverse.dropWhile isWS)
      (l.dropWhile isWS).reverse := List.dropWhile_sublist _
  have h2 := h1.reverse
  rw [List.reverse_reverse] at h2
  exact h2.trans (List.dropWhile_sublist _)

theorem head_jsTrim_false (l : List Char) (c : Char)
    (h : (jsTrim l).head? = some c) : isWS c = false := by
  unfold jsTrim at h
  rcases he : trimEnd (l.dropWhile isWS) with _ | ⟨a, t⟩
  · rw [he] at h; simp at h
  · rw [he] at h
    simp only [List.head?_cons, Option.some.injEq] at h
    have hy := trimEnd_append (l.dropWhile isWS)
    rw [he] at hy
    have hh : (l.dropWhile isWS).head? = some a := by rw [hy]; rfl
    rw [← h]
    exact head_dropWhile_false isWS l a hh

theorem dropWhile_jsTrim (l : List Char) : (jsTrim l).dropWhile isWS = jsTrim l := by
  rcases he : jsTrim l with _ | ⟨a, t⟩
  · rfl
  · have ha : isWS a = false := head_jsTrim_false l a (by rw [he]; rfl)
    rw [List.dropWhile_cons_of_neg (by simp [ha])]

theorem r1_eq_self : ∀ {l : List Char}, '\n' ∉ l → r1 l = l := by
  intro l
  induction l using r1.induct with
  | case1 => intro _; rfl
  | case2 rest ih =>
    intro h
    exact absurd (List.mem_cons_of_mem _ (List.mem_cons_self _ _)) h
  | case3 c rest hne ih =>
    intro h
    have hrest : '\n' ∉ rest := fun m => h (List.mem_cons_of_mem c m)
    rw [r1, ih hrest]
    exact hne

theorem scanRel_false_no_lf : ∀ {s : List Char}, '\n' ∉ s → scanRel s false = none := by
  intro s h
  induction s with
  | nil => rfl
  | cons c rest ih =>
    have hc : c ≠ '\n' := fun e => h (e ▸ List.mem_cons_self c rest)
    have hrest : '\n' ∉ rest := fun m => h (List.mem_cons_of_mem c m)
    simp [scanRel, hc, beq_eq_false_iff_ne.mpr hc, ih hrest]

theorem scanRel_true_no_lf {s : List Char} (h : '\n' ∉ s) :
    (scanRel s true).isSome = (matchBody s).isSome := by
  cases s with
  | nil => rfl
  | cons c rest =>
    have hc : c ≠ '\n' := fun e => h (e ▸ List.mem_cons_self c rest)
    have hrest : '\n' ∉ rest := fun m => h (List.mem_cons_of_mem c m)
    simp only [scanRel, if_pos trivial]
    rcases hm : matchBody (c :: rest) with _ | ⟨len, ds, ti⟩
    · simp [hm, hc, beq_eq_false_iff_ne.mpr hc, scanRel_false_no_lf hrest]
    · simp [hm]

theorem matchBody_isSome_iff (s : List Char) :
    (matchBody s).isSome =
      (match matchKeyword (s.dropWhile isWS) with
       | none => false
       | some (_, s2) =>
         !(s2.takeWhile isWS).isEmpty &&
         !((s2.dropWhile isWS).takeWhile isDigitC).isEmpty) := by
  unfold matchBody
  rcases hk : matchKeyword (s.dropWhile isWS) with _ | ⟨kwLen, s2⟩
  · simp [hk]
  · simp only [hk]
    by_cases h1 : (s2.takeWhile isWS).isEmpty
    · simp [h1]
    · by_cases h2 : ((s2.dropWhile isWS).takeWhile isDigitC).isEmpty
      · simp [h1, h2]
      · simp [h1, h2]

theorem detectsHeading_eq_scan (l : String) :
    detectsHeading l = (scanRel (prep l) true).isSome := by
  unfold detectsHeading findAll
  rcases hs : scanRel (prep l) true with _ | ⟨o, len, ds, ti⟩
  · simp [findAllAux, hs]
  · simp [findAllAux, hs]

/-- C4 amended: a line (a newline-free string) is detected as a chapter
heading exactly when, after trimming, it begins with one of the
case-insensitive keywords followed by whitespace and a run of one or more
decimal digits — with no upper bound on the digit run, and with separator
and trailing text unconstrained. -/
theorem heading_detection_characterization (l : String) (h : '\n' ∉ l.data) :
    detectsHeading l = specHeadingLine none l := by
  have hprep : prep l = jsTrim l.data := by rw [prep, r1_eq_self h]
  have hnl : '\n' ∉ prep l := by
    rw [hprep]
    exact fun m => h ((jsTrim_sublist l.data).mem m)
  rw [detectsHeading_eq_scan, scanRel_true_no_lf hnl, matchBody_isSome_iff, hprep,
    dropWhile_jsTrim]
  unfold specHeadingLine
  rcases hk : matchKeyword (jsTrim l.data) with _ | ⟨k, r2⟩
  · simp [hk]
  · simp [hk]

/-- C4 witness: a concrete heading line and a concrete non-heading line. -/
theorem heading_detection_characterization_witness :
    ('\n' ∉ ("Chapter 12 - Dash" : String).data ∧
      detectsHeading "Chapter 12 - Dash" = specHeadingLine none "Chapter 12 - Dash") ∧
    ('\n' ∉ ("not a heading" : String).data ∧
      detectsHeading "not a heading" = specHeadingLine none "not a heading") :=
  ⟨⟨by decide, heading_detection_characterization _ (by decide)⟩,
   ⟨by decide, heading_detection_characterization _ (by decide)⟩⟩

/-- C5: when zero heading matches are found, the segmenter returns exactly
one chapter with id "1", the default title and the normalized/trimmed full
text as content; and for every input the segmenter returns at least one
chapter. -/
theorem no_heading_fallback (s : String) :
    (findAll (prep s) = [] →
      splitChapters s = [{ id := "1", title := "Chapter 1", content := String.mk (prep s) }]) ∧
    splitChapters s ≠ [] := by
  constructor
  · intro h
    simp [splitChapters, h]
  · by_cases h : findAll (prep s) = []
    · simp [splitChapters, h]
    · rcases hm : findAll (prep s) with _ | ⟨m, rest⟩
      · exact absurd hm h
      · simp [splitChapters, hm, buildChapters]

/-- C5 witness: a concrete input with no heading matches. -/
theorem no_heading_fallback_witness :
    findAll (prep "hello world") = [] ∧
    splitChapters "hello world"
      = [{ id := "1", title := "Chapter 1", content := String.mk (prep "hello world") }] ∧
    splitChapters "hello world" ≠ [] :=
  ⟨by decide, (no_heading_fallback "hello world").1 (by decide),
   (no_heading_fallback "hello world").2⟩

/-- C8 counterexample: an import whose document parses to two chapters with
the same number produces the very same caller-visible outcome as one with
distinct numbers — the plain success message; no warning condition is
surfaced. -/
theorem duplicate_ids_not_reported :
    ((splitChapters "chapter 1\nAAA\nchapter 1\nBBB").map fun c => c.id) = ["1", "1"] ∧
    importMsg [("a.docx", "chapter 1\nAAA\nchapter 1\nBBB")]
      = importMsg [("b.docx", "chapter 1\nAAA\nchapter 2\nBBB")] := by
  exact ⟨by decide, by decide⟩

/-- C8 amended: duplicate chapter numbers are not detected or reported;
segmentation silently produces both records, the import reports plain
success, and on persistence the later record overwrites the earlier one
because the store is keyed by id. -/
theorem duplicate_ids_silent_last_write_wins :
    splitChapters "chapter 1\nAAA\nchapter 1\nBBB"
      = [{ id := "1", title := "Chapter 1: AAA", content := "AAA" },
         { id := "1", title := "Chapter 1: BBB", content := "BBB" }] ∧
    importMsg [("a.docx", "chapter 1\nAAA\nchapter 1\nBBB")]
      = "✅ Import xong: 1 file • 2 chapter" ∧
    upsertAll 9 (splitChapters "chapter 1\nAAA\nchapter 1\nBBB") (fun _ => none) "1"
      = some { id := "1", num := 1, title := "Chapter 1: BBB", content := "BBB", updatedAt := 9 } := by
  exact ⟨by decide, by decide, by decide⟩

theorem stripKw_head {p : Char} {ps v r : List Char}
    (h : stripKwCI (p :: ps) v = some r) : ∃ c cs, v = c :: cs ∧ foldC c = p := by
  cases v with
  | nil => exact absurd h (by simp [stripKwCI])
  | cons c cs =>
    by_cases hf : foldC c = p
    · exact ⟨c, cs, rfl, hf⟩
    · rw [stripKwCI, if_neg hf] at h
      exact absurd h (by simp)

theorem matchKeyword_head {v : List Char} {k : Nat} {rest : List Char}
    (h : matchKeyword v = some (k, rest)) :
    0 < k ∧ ∃ c cs, v = c :: cs ∧ foldC c = 'c' := by
  unfold matchKeyword at h
  rcases h1 : stripKwCI "chapter".data v with _ | r1
  · rw [h1] at h
    rcases h2 : stripKwCI "chương".data v with _ | r2
    · rw [h2] at h; exact absurd h (by simp)
    · rw [h2] at h
      have hk : k = 6 := by
        have := h.symm
        simp only [Option.some.injEq, Prod.mk.injEq] at this
        omega
      have hhead := @stripKw_head 'c' "hương".data _ _
        (by rw [show ('c' :: "hương".data) = "chương".data from rfl]; exact h2)
      exact ⟨by omega, hhead⟩
  · rw [h1] at h
    have hk : k = 7 := by
      have := h.symm
      simp only [Option.some.injEq, Prod.mk.injEq] at this
      omega
    have hhead := @stripKw_head 'c' "hapter".data _ _
      (by rw [show ('c' :: "hapter".data) = "chapter".data from rfl]; exact h1)
    exact ⟨by omega, hhead⟩

theorem isWS_iff (c : Char) : isWS c = true ↔
    ((9 ≤ c.toNat ∧ c.toNat ≤ 13) ∨ c.toNat = 32 ∨ c.toNat = 0xA0 ∨ c.toNat = 0x1680 ∨
     (0x2000 ≤ c.toNat ∧ c.toNat ≤ 0x200A) ∨ c.toNat = 0x2028 ∨ c.toNat = 0x2029 ∨
     c.toNat = 0x202F ∨ c.toNat = 0x205F ∨ c.toNat = 0x3000 ∨ c.toNat = 0xFEFF) := by
  simp [isWS, Bool.or_eq_true, Bool.and_eq_true, beq_iff_eq, decide_eq_true_eq]
  tauto

theorem not_ws_of_toNat_range {c : Char}
    (h : (65 ≤ c.toNat ∧ c.toNat ≤ 90) ∨ c.toNat = 0x1AF ∨ c.toNat = 0x1A0 ∨ c.toNat = 99) :
    isWS c = false := by
  rw [Bool.eq_false_iff]
  intro hw
  have := (isWS_iff c).mp hw
  omega

theorem foldC_eq_c_not_ws {c : Char} (h : foldC c = 'c') : isWS c = false := by
  unfold foldC at h
  by_cases h1 : (65 ≤ c.toNat && c.toNat ≤ 90) = true
  · simp only [Bool.and_eq_true, decide_eq_true_eq] at h1
    exact not_ws_of_toNat_range (Or.inl h1)
  · rw [if_neg (by simpa using h1)] at h
    by_cases h2 : c.toNat = 0x1AF
    · exact not_ws_of_toNat_range (Or.inr (Or.inl h2))
    · rw [if_neg h2] at h
      by_cases h3 : c.toNat = 0x1A0
      · exact not_ws_of_toNat_range (Or.inr (Or.inr (Or.inl h3)))
      · rw [if_neg h3] at h
        subst h
        decide

theorem matchBody_keyword_char {u : List Char} {len : Nat} {ds ti : List Char}
    (h : matchBody u = some (len, ds, ti)) :
    ∃ j c, j < len ∧ u[j]? = some c ∧ isWS c = false := by
  simp only [matchBody] at h
  split at h
  · exact absurd h (by simp)
  · next kwLen s2 hk =>
    obtain ⟨hkpos, c, cs, hv, hfold⟩ := matchKeyword_head hk
    split at h
    · exact absurd h (by simp)
    · split at h
      · exact absurd h (by simp)
      · simp only [Option.some.injEq, Prod.mk.injEq] at h
        obtain ⟨hlen, _, _⟩ := h
        refine ⟨(u.takeWhile isWS).length, c, by omega, ?_, foldC_eq_c_not_ws hfold⟩
        have key : u[(u.takeWhile isWS).length]? = (u.dropWhile isWS)[0]? := by
          have h0 := @List.getElem?_append_right Char (u.takeWhile isWS)
            (u.dropWhile isWS) (u.takeWhile isWS).length (le_refl _)
          rw [List.takeWhile_append_dropWhile] at h0
          simpa using h0
        rw [key, hv]
        simp

theorem scanRel_char : ∀ {s : List Char} {b : Bool} {o len : Nat} {ds ti : List Char},
    scanRel s b = some (o, len, ds, ti) →
    ∃ j c, j < len ∧ s[o + j]? = some c ∧ isWS c = false := by
  intro s
  induction s with
  | nil => intro b o len ds ti h; exact absurd h (by simp [scanRel])
  | cons a rest ih =>
    intro b o len ds ti h
    simp only [scanRel] at h
    rcases h1 : (if b then matchBody (a :: rest) else none) with _ | ⟨len1, ds1, ti1⟩
    · rw [h1] at h
      rcases h2 : (if a = '\n' then matchBody rest else none) with _ | ⟨len2, ds2, ti2⟩
      · rw [h2] at h
        obtain ⟨⟨o2, len2, ds2, ti2⟩, hsc, heq⟩ := Option.map_eq_some'.mp h
        simp only [Prod.mk.injEq] at heq
        obtain ⟨j, c, hj, hg, hw⟩ := ih hsc
        refine ⟨j, c, by omega, ?_, hw⟩
        have : o + j = (o2 + j) + 1 := by omega
        rw [this]
        simpa using hg
      · rw [h2] at h
        have ha : a = '\n' ∧ matchBody rest = some (len2, ds2, ti2) := by
          by_cases hc : a = '\n'
          · rw [if_pos hc] at h2; exact ⟨hc, h2⟩
          · rw [if_neg hc] at h2; exact absurd h2 (by simp)
        obtain ⟨j, c, hj, hg, hw⟩ := matchBody_keyword_char ha.2
        simp only [Option.some.injEq, Prod.mk.injEq] at h
        refine ⟨j + 1, c, by omega, ?_, hw⟩
        have : o + (j + 1) = j + 1 := by omega
        rw [this]
        simpa using hg
    · rw [h1] at h
      have hb : matchBody (a :: rest) = some (len1, ds1, ti1) := by
        by_cases hc : b
        · rw [if_pos hc] at h1; exact h1
        · rw [if_neg hc] at h1; exact absurd h1 (by simp)
      simp only [Option.some.injEq, Prod.mk.injEq] at h
      obtain ⟨j, c, hj, hg, hw⟩ := matchBody_keyword_char hb
      refine ⟨j, c, by omega, ?_, hw⟩
      have : o + j = j := by omega
      rw [this]
      exact hg

theorem findAllAux_index_ge :
    ∀ fuel (s : List Char) (i : Nat) (b : Bool), ∀ m ∈ findAllAux fuel s i b, i ≤ m.index := by
  intro fuel
  induction fuel with
  | zero => intro s i b m hm; simp [findAllAux] at hm
  | succ f ih =>
    intro s i b m hm
    simp only [findAllAux] at hm
    rcases hs : scanRel s b with _ | ⟨o, len, ds, ti⟩
    · rw [hs] at hm; simp at hm
    · rw [hs] at hm
      rcases List.mem_cons.mp hm with hm | hm
      · rw [hm]
        exact Nat.le_add_right i o
      · have := ih _ _ _ m hm
        omega

theorem findAllAux_chain :
    ∀ fuel (s : List Char) (i : Nat) (b : Bool),
      List.Chain' (fun m1 m2 => m1.index + m1.len ≤ m2.index) (findAllAux fuel s i b) := by
  intro fuel
  induction fuel with
  | zero => intro s i b; simp [findAllAux]
  | succ f ih =>
    intro s i b
    simp only [findAllAux]
    rcases hs : scanRel s b with _ | ⟨o, len, ds, ti⟩
    · simp
    · refine List.chain'_cons'.mpr ⟨?_, ih _ _ _⟩
      intro m2 hm2
      have hmem : m2 ∈ findAllAux f (s.drop (o + len)) (i + o + len)
          (s.get? (o + len - 1) == some '\n') := List.mem_of_mem_head? hm2
      have := findAllAux_index_ge f _ _ _ m2 hmem
      show i + o + len ≤ m2.index
      omega

theorem findAllAux_seen (t : List Char) :
    ∀ fuel (i : Nat) (b : Bool), ∀ m ∈ findAllAux fuel (t.drop i) i b,
      ∃ j c, j < m.len ∧ t[m.index + j]? = some c ∧ isWS c = false := by
  intro fuel
  induction fuel with
  | zero => intro i b m hm; simp [findAllAux] at hm
  | succ f ih =>
    intro i b m hm
    simp only [findAllAux] at hm
    rcases hs : scanRel (t.drop i) b with _ | ⟨o, len, ds, ti⟩
    · rw [hs] at hm; simp at hm
    · rw [hs] at hm
      rcases List.mem_cons.mp hm with hm | hm
      · obtain ⟨j, c, hj, hg, hw⟩ := scanRel_char hs
        rw [hm]
        refine ⟨j, c, hj, ?_, hw⟩
        simp only [HeadMatch.index]
        rw [List.getElem?_drop] at hg
        have : i + o + j = i + (o + j) := by omega
        rw [this]
        exact hg
      · have hdd : (t.drop i).drop (o + len) = t.drop (i + o + len) := by
          rw [List.drop_drop]
          have : i + (o + len) = i + o + len := by omega
          rw [this]
        rw [hdd] at hm
        exact ih (i + o + len) _ m hm

theorem findAll_seen (t : List Char) :
    ∀ m ∈ findAll t, ∃ j c, j < m.len ∧ t[m.index + j]? = some c ∧ isWS c = false := by
  intro m hm
  have h0 : t.drop 0 = t := List.drop_zero t
  exact findAllAux_seen t (t.length + 1) 0 true m (by rw [h0]; exact hm)

theorem findAll_chain (t : List Char) :
    List.Chain' (fun m1 m2 => m1.index + m1.len ≤ m2.index) (findAll t) :=
  findAllAux_chain (t.length + 1) t 0 true

theorem mem_dropWhile_of_not_ws {l : List Char} {c : Char}
    (hc : c ∈ l) (hw : isWS c = false) : c ∈ l.dropWhile isWS := by
  have hsplit : c ∈ l.takeWhile isWS ++ l.dropWhile isWS := by
    rw [List.takeWhile_append_dropWhile]; exact hc
  rcases List.mem_append.mp hsplit with h | h
  · have := List.mem_takeWhile_imp h
    rw [hw] at this
    exact absurd this (by simp)
  · exact h

theorem mem_jsTrim_of_not_ws {l : List Char} {c : Char}
    (hc : c ∈ l) (hw : isWS c = false) : c ∈ jsTrim l := by
  have h1 : c ∈ l.dropWhile isWS := mem_dropWhile_of_not_ws hc hw
  have h2 : c ∈ (l.dropWhile isWS).reverse := List.mem_reverse.mpr h1
  have h3 : c ∈ (l.dropWhile isWS).reverse.dropWhile isWS := mem_dropWhile_of_not_ws h2 hw
  exact List.mem_reverse.mpr h3

theorem jsTrim_ne_nil {l : List Char} {c : Char}
    (hc : c ∈ l) (hw : isWS c = false) : jsTrim l ≠ [] := by
  intro he
  have := mem_jsTrim_of_not_ws hc hw
  rw [he] at this
  exact absurd this (List.not_mem_nil c)

theorem string_mk_ne_empty {l : List Char} (h : l ≠ []) : String.mk l ≠ "" := by
  intro he
  exact h (congrArg String.data he)

theorem mkChapter_content_ne (t : List Char) (m : HeadMatch) (endIdx : Nat)
    (hj : ∃ j c, j < m.len ∧ t[m.index + j]? = some c ∧ isWS c = false)
    (hend : m.index + m.len ≤ endIdx ∨ endIdx = t.length) :
    (mkChapter t m endIdx).content ≠ "" := by
  obtain ⟨j, c, hjlen, hg, hw⟩ := hj
  have hjlt : m.index + j < endIdx := by
    rcases hend with hend | hend
    · omega
    · have := (List.getElem?_eq_some_iff.mp hg).1
      omega
  have hslice : ((t.drop m.index).take (endIdx - m.index))[j]? = some c := by
    rw [List.getElem?_take_of_lt (by omega), List.getElem?_drop]
    exact hg
  have hcs : c ∈ (t.drop m.index).take (endIdx - m.index) := List.getElem?_mem hslice
  have hchunk : jsTrim ((t.drop m.index).take (endIdx - m.index)) ≠ [] :=
    jsTrim_ne_nil hcs hw
  unfold mkChapter
  by_cases hcE :
      (jsTrim (removeHeadingLine (jsTrim ((t.drop m.index).take (endIdx - m.index))))).isEmpty
  · simp only [hcE, if_pos]
    exact string_mk_ne_empty hchunk
  · simp only [hcE, if_neg, Bool.false_eq_true, not_false_eq_true, ite_false]
    apply string_mk_ne_empty
    intro he
    rw [he] at hcE
    exact hcE rfl

theorem buildChapters_content_ne (t : List Char) :
    ∀ ms : List HeadMatch,
      (∀ m ∈ ms, ∃ j c, j < m.len ∧ t[m.index + j]? = some c ∧ isWS c = false) →
      List.Chain' (fun m1 m2 => m1.index + m1.len ≤ m2.index) ms →
      ∀ ch ∈ buildChapters t ms, ch.content ≠ "" := by
  intro ms
  induction ms with
  | nil => intro _ _ ch hch; simp [buildChapters] at hch
  | cons m rest ih =>
    intro hseen hchain ch hch
    simp only [buildChapters] at hch
    rcases List.mem_cons.mp hch with hch | hch
    · rw [hch]
      apply mkChapter_content_ne t m _ (hseen m (List.mem_cons_self m rest))
      cases rest with
      | nil => right; rfl
      | cons m2 r2 =>
        left
        have := (List.chain'_cons'.mp hchain).1 m2 (by simp)
        exact this
    · exact ih (fun m' hm' => hseen m' (List.mem_cons_of_mem _ hm'))
        (List.chain'_cons'.mp hchain).2 ch hch

/-- C9: every chapter produced from a matched heading has non-empty
content: when removing the heading line leaves an empty trimmed string, the
content falls back to the entire trimmed chunk, which always contains the
heading keyword. -/
theorem chapter_content_nonempty (s : String) (h : findAll (prep s) ≠ []) :
    ∀ ch ∈ splitChapters s, ch.content ≠ "" := by
  intro ch hch
  have hch' : ch ∈ buildChapters (prep s) (findAll (prep s)) := by
    rcases hm : findAll (prep s) with _ | ⟨m0, rest0⟩
    · exact absurd hm h
    · rw [splitChapters] at hch
      simp only [hm, List.isEmpty_cons, Bool.false_eq_true, if_false] at hch
      exact hch
  exact buildChapters_content_ne (prep s) (findAll (prep s))
    (findAll_seen (prep s)) (findAll_chain (prep s)) ch hch'

/-- C9 witness: a concrete two-chapter input, one of whose chapters has an
empty body after heading removal (its content falls back to the chunk). -/
theorem chapter_content_nonempty_witness :
    findAll (prep "Chapter 007: Dawn") ≠ [] ∧
    ∀ ch ∈ splitChapters "Chapter 007: Dawn", ch.content ≠ "" :=
  ⟨by decide, chapter_content_nonempty _ (by decide)⟩

theorem prefsWinner_eq (l r : ReaderPrefs) :
    prefsWinner l r = if r.updatedAt.getD 0 ≤ l.updatedAt.getD 0 then l else r := by
  unfold prefsWinner
  by_cases h1 : l.updatedAt.getD 0 > r.updatedAt.getD 0
  · rw [if_pos h1, if_pos (le_of_lt h1)]
  · by_cases h2 : r.updatedAt.getD 0 > l.updatedAt.getD 0
    · rw [if_neg h1, if_pos h2, if_neg (not_le.mpr h2)]
    · rw [if_neg h1, if_neg h2, if_pos (by omega)]

theorem progressWinner_eq (l r : ReaderProgress) :
    progressWinner l r = if r.updatedAt.getD 0 ≤ l.updatedAt.getD 0 then l else r := by
  unfold progressWinner
  by_cases h1 : l.updatedAt.getD 0 > r.updatedAt.getD 0
  · rw [if_pos h1, if_pos (le_of_lt h1)]
  · by_cases h2 : r.updatedAt.getD 0 > l.updatedAt.getD 0
    · rw [if_neg h1, if_pos h2, if_neg (not_le.mpr h2)]
    · rw [if_neg h1, if_neg h2, if_pos (by omega)]

/-- C1 counterexample: a progress pair whose winner (the local copy, by the
greater updatedAt) has an empty lastChapterId: the losing remote store is
NOT overwritten — both stores keep their old values and do not converge. -/
theorem progress_reconcile_empty_id_no_overwrite :
    progressWinner { lastChapterId := "", updatedAt := some 100 }
                   { lastChapterId := "5", updatedAt := some 50 }
      = { lastChapterId := "", updatedAt := some 100 } ∧
    reconcileProgress (some { lastChapterId := "", updatedAt := some 100 })
                      (some { lastChapterId := "5", updatedAt := some 50 }) 200
      = (some { lastChapterId := "", updatedAt := some 100 },
         some { lastChapterId := "5", updatedAt := some 50 }) ∧
    ({ lastChapterId := "5", updatedAt := some 50 } : ReaderProgress)
      ≠ { lastChapterId := "", updatedAt := some 100 } := by
  exact ⟨by decide, by decide, by decide⟩

/-- C1 amended: preference reconciliation always converges both stores to
the winner's payload — strictly greater updatedAt wins, ties go to the
local copy, a single present copy wins — and progress reconciliation does
the same provided the winning lastChapterId is non-empty (the code skips
all writes when it is the empty string). -/
theorem reconciliation_convergence (l r : ReaderPrefs) (pl pr : ReaderProgress) (now : Int)
    (hl : pl.lastChapterId ≠ "") (hr : pr.lastChapterId ≠ "") :
    ((reconcilePrefs (some l) (some r) now).1.map prefsPayload
        = some (prefsPayload (prefsWinner l r)) ∧
     (reconcilePrefs (some l) (some r) now).2.map prefsPayload
        = some (prefsPayload (prefsWinner l r))) ∧
    ((reconcilePrefs (some l) none now).1.map prefsPayload = some (prefsPayload l) ∧
     (reconcilePrefs (some l) none now).2.map prefsPayload = some (prefsPayload l)) ∧
    ((reconcilePrefs none (some r) now).1 = some r ∧
     (reconcilePrefs none (some r) now).2 = some r) ∧
    ((reconcileProgress (some pl) (some pr) now).1.map (fun p => p.lastChapterId)
        = some (progressWinner pl pr).lastChapterId ∧
     (reconcileProgress (some pl) (some pr) now).2.map (fun p => p.lastChapterId)
        = some (progressWinner pl pr).lastChapterId) ∧
    ((reconcileProgress (some pl) none now).1.map (fun p => p.lastChapterId)
        = some pl.lastChapterId ∧
     (reconcileProgress (some pl) none now).2.map (fun p => p.lastChapterId)
        = some pl.lastChapterId) ∧
    ((reconcileProgress none (some pr) now).1 = some pr ∧
     (reconcileProgress none (some pr) now).2 = some pr) := by
  refine ⟨?_, ?_, ?_, ?_, ?_, ?_⟩
  · by_cases hc : r.updatedAt.getD 0 ≤ l.updatedAt.getD 0
    · simp [reconcilePrefs, prefsWinner_eq, prefsPayload, hc]
    · simp [reconcilePrefs, prefsWinner_eq, prefsPayload, hc]
  · simp [reconcilePrefs, prefsPayload]
  · simp [reconcilePrefs]
  · by_cases hc : pr.updatedAt.getD 0 ≤ pl.updatedAt.getD 0
    · simp [reconcileProgress, progressWinner_eq, hc, hl]
    · simp [reconcileProgress, progressWinner_eq, hc, hr]
  · simp [reconcileProgress, hl]
  · simp [reconcileProgress, hr]

theorem mem_r1 {c : Char} : ∀ {l : List Char}, c ∈ r1 l → c ∈ l := by
  intro l
  induction l using r1.induct with
  | case1 => intro h; exact h
  | case2 rest ih =>
    intro h
    rw [r1] at h
    rcases List.mem_cons.mp h with h | h
    · rw [h]; simp
    · simp [ih h]
  | case3 c2 rest hne ih =>
    intro h
    rw [r1] at h
    · rcases List.mem_cons.mp h with h | h
      · rw [h]; simp
      · simp [ih h]
    · exact hne

theorem r1_eq_self_cr : ∀ {l : List Char}, '\r' ∉ l → r1 l = l := by
  intro l
  induction l using r1.induct with
  | case1 => intro _; rfl
  | case2 rest ih =>
    intro h
    exact absurd (List.mem_cons_self _ _) h
  | case3 c rest hne ih =>
    intro h
    have hrest : '\r' ∉ rest := fun m => h (List.mem_cons_of_mem c m)
    rw [r1, ih hrest]
    exact hne

theorem mem_r2 {c : Char} {l : List Char} (h : c ∈ r2 l) : c ∈ l ∨ c = ' ' := by
  unfold r2 at h
  obtain ⟨a, ha, hc⟩ := List.mem_map.mp h
  by_cases hn : a = nbsp
  · rw [hn, if_pos rfl] at hc; right; exact hc.symm
  · rw [if_neg hn] at hc; left; rw [← hc]; exact ha

theorem not_nbsp_mem_r2 {c : Char} {l : List Char} (h : c ∈ r2 l) : c ≠ nbsp := by
  unfold r2 at h
  obtain ⟨a, ha, hc⟩ := List.mem_map.mp h
  by_cases hn : a = nbsp
  · rw [hn, if_pos rfl] at hc; rw [← hc]; decide
  · rw [if_neg hn] at hc; rw [← hc]; exact hn

theorem r2_eq_self {l : List Char} (h : ∀ c ∈ l, c ≠ nbsp) : r2 l = l := by
  unfold r2
  induction l with
  | nil => rfl
  | cons a rest ih =>
    simp only [List.map_cons]
    rw [if_neg (h a (List.mem_cons_self a rest)),
      ih (fun c hc => h c (List.mem_cons_of_mem a hc))]

theorem mem_r3aux {c : Char} :
    ∀ {l pend : List Char}, c ∈ r3aux pend l → c ∈ pend ∨ c ∈ l := by
  intro l
  induction l with
  | nil =>
    intro pend h
    rw [r3aux] at h
    exact Or.inl (List.mem_reverse.mp h)
  | cons a rest ih =>
    intro pend h
    rw [r3aux] at h
    by_cases hst : isST a
    · rw [if_pos hst] at h
      rcases ih h with h | h
      · rcases List.mem_cons.mp h with h | h
        · right; rw [h]; simp
        · left; exact h
      · right; exact List.mem_cons_of_mem a h
    · rw [if_neg hst] at h
      by_cases hnl : a = '\n'
      · rw [if_pos hnl] at h
        rcases List.mem_cons.mp h with h | h
        · right; rw [h, hnl]; simp
        · rcases ih h with h | h
          · exact absurd h (List.not_mem_nil c)
          · right; exact List.mem_cons_of_mem a h
      · rw [if_neg hnl] at h
        rcases List.mem_append.mp h with h | h
        · left; exact List.mem_reverse.mp h
        · rcases List.mem_cons.mp h with h | h
          · right; rw [h]; simp
          · rcases ih h with h | h
            · exact absurd h (List.not_mem_nil c)
            · right; exact List.mem_cons_of_mem a h

theorem mem_r4aux {c : Char} :
    ∀ {l : List Char} {k : Nat}, c ∈ r4aux k l → c = '\n' ∨ c ∈ l := by
  intro l
  induction l with
  | nil =>
    intro k h
    rw [r4aux] at h
    exact Or.inl (List.eq_of_mem_replicate h)
  | cons a rest ih =>
    intro k h
    rw [r4aux] at h
    by_cases hnl : a = '\n'
    · rw [if_pos hnl] at h
      rcases ih h with h | h
      · exact Or.inl h
      · exact Or.inr (List.mem_cons_of_mem a h)
    · rw [if_neg hnl] at h
      rcases List.mem_append.mp h with h | h
      · exact Or.inl (List.eq_of_mem_replicate h)
      · rcases List.mem_cons.mp h with h | h
        · right; rw [h]; simp
        · rcases ih h with h | h
          · exact Or.inl h
          · exact Or.inr (List.mem_cons_of_mem a h)

/-! noSTLF: established by stage 3, preserved by stage 4 and trimming. -/

theorem noSTLF_of_not_st {l : List Char} (h : ∀ a ∈ l, isST a = false) : noSTLF l := by
  induction l with
  | nil => exact List.chain'_nil
  | cons a rest ih =>
    refine List.chain'_cons'.mpr ⟨?_, ih (fun x hx => h x (List.mem_cons_of_mem a hx))⟩
    intro b _ hab
    have := h a (List.mem_cons_self a rest)
    rw [this] at hab
    exact absurd hab.1 (by simp)

theorem noSTLF_of_no_lf {l : List Char} (h : ∀ b ∈ l, b ≠ '\n') : noSTLF l := by
  induction l with
  | nil => exact List.chain'_nil
  | cons a rest ih =>
    refine List.chain'_cons'.mpr ⟨?_, ih (fun x hx => h x (List.mem_cons_of_mem a hx))⟩
    intro b hb hab
    exact h b (List.mem_cons_of_mem a (List.mem_of_mem_head? hb)) hab.2

theorem noSTLF_r3aux :
    ∀ (l pend : List Char), (∀ x ∈ pend, isST x = true) → noSTLF (r3aux pend l) := by
  intro l
  induction l with
  | nil =>
    intro pend hp
    rw [r3aux]
    refine noSTLF_of_no_lf ?_
    intro b hb he
    have := hp b (List.mem_reverse.mp hb)
    rw [he] at this
    exact absurd this (by decide)
  | cons a rest ih =>
    intro pend hp
    rw [r3aux]
    by_cases hst : isST a
    · rw [if_pos hst]
      refine ih (a :: pend) ?_
      intro x hx
      rcases List.mem_cons.mp hx with hx | hx
      · rw [hx]; exact hst
      · exact hp x hx
    · rw [if_neg hst]
      by_cases hnl : a = '\n'
      · rw [if_pos hnl]
        refine List.chain'_cons'.mpr ⟨?_, ih [] (by simp)⟩
        intro b _ hab
        exact absurd hab.1 (by decide)
      · rw [if_neg hnl]
        refine List.chain'_append.mpr ⟨?_, ?_, ?_⟩
        · refine noSTLF_of_no_lf ?_
          intro b hb he
          have := hp b (List.mem_reverse.mp hb)
          rw [he] at this
          exact absurd this (by decide)
        · refine List.chain'_cons'.mpr ⟨?_, ih [] (by simp)⟩
          intro b _ hab
          rw [Bool.eq_false_iff.mpr hst] at hab
          exact absurd hab.1 (by simp)
        · intro x _ y hy hxy
          have hay : y ∈ (a :: r3aux [] rest).head? := hy
          simp only [List.head?_cons, Option.mem_def, Option.some.injEq] at hay
          exact hnl (hay.trans hxy.2)

theorem noSTLF_r3 (l : List Char) : noSTLF (r3 l) := noSTLF_r3aux l [] (by simp)

theorem r4aux_head_nl {rest : List Char}
    (h : (r4aux 0 rest).head? = some '\n') : rest.head? = some '\n' := by
  cases rest with
  | nil => rw [r4aux] at h; exact absurd h (by decide)
  | cons d r2 =>
    by_cases hd : d = '\n'
    · rw [hd]; rfl
    · rw [r4aux, if_neg hd] at h
      simp only [emitNL] at h
      simp at h
      exact absurd h hd

theorem noSTLF_r4aux :
    ∀ (l : List Char) (k : Nat), noSTLF l → noSTLF (r4aux k l) := by
  intro l
  induction l with
  | nil =>
    intro k _
    rw [r4aux]
    refine noSTLF_of_not_st ?_
    intro a ha
    rw [List.eq_of_mem_replicate ha]
    decide
  | cons a rest ih =>
    intro k h
    rw [r4aux]
    by_cases hnl : a = '\n'
    · rw [if_pos hnl]
      exact ih (k + 1) (List.chain'_cons'.mp h).2
    · rw [if_neg hnl]
      refine List.chain'_append.mpr ⟨?_, ?_, ?_⟩
      · refine noSTLF_of_not_st ?_
        intro x hx
        rw [List.eq_of_mem_replicate hx]
        decide
      · refine List.chain'_cons'.mpr ⟨?_, ih 0 (List.chain'_cons'.mp h).2⟩
        intro b hb hab
        have hbn : (r4aux 0 rest).head? = some '\n' := by
          rw [hab.2] at hb
          exact hb
        have := r4aux_head_nl hbn
        exact (List.chain'_cons'.mp h).1 '\n' this ⟨hab.1, rfl⟩
      · intro x hx y _ hxy
        rw [List.eq_of_mem_replicate (List.mem_of_mem_getLast? hx)] at hxy
        exact absurd hxy.1 (by decide)

theorem noSTLF_dropWhile {l : List Char} (p : Char → Bool)
    (h : noSTLF l) : noSTLF (l.dropWhile p) := by
  induction l with
  | nil => exact h
  | cons a rest ih =>
    by_cases hp : p a
    · rw [List.dropWhile_cons_of_pos hp]
      exact ih (List.chain'_cons'.mp h).2
    · rw [List.dropWhile_cons_of_neg hp]
      exact h

theorem noSTLF_trimEnd {l : List Char} (h : noSTLF l) : noSTLF (trimEnd l) := by
  have happ := trimEnd_append l
  rw [happ] at h
  exact (List.chain'_append.mp h).1

theorem noSTLF_jsTrim {l : List Char} (h : noSTLF l) : noSTLF (jsTrim l) :=
  noSTLF_trimEnd (noSTLF_dropWhile isWS h)

theorem r3aux_eq :
    ∀ (l pend : List Char), (pend ≠ [] → l.head? ≠ some '\n') → noSTLF l →
      r3aux pend l = pend.reverse ++ l := by
  intro l
  induction l with
  | nil =>
    intro pend _ _
    rw [r3aux, List.append_nil]
  | cons a rest ih =>
    intro pend hpend h
    rw [r3aux]
    by_cases hst : isST a
    · rw [if_pos hst]
      have hnext : (a :: pend) ≠ [] → rest.head? ≠ some '\n' := by
        intro _ hh
        exact (List.chain'_cons'.mp h).1 '\n' hh ⟨hst, rfl⟩
      rw [ih (a :: pend) hnext (List.chain'_cons'.mp h).2]
      simp
    · rw [if_neg hst]
      by_cases hnl : a = '\n'
      · rw [if_pos hnl]
        have hpe : pend = [] := by
          by_contra hne
          exact hpend hne (by rw [hnl]; rfl)
        rw [ih [] (by simp) (List.chain'_cons'.mp h).2, hpe, hnl]
        simp
      · rw [if_neg hnl]
        rw [ih [] (by simp) (List.chain'_cons'.mp h).2]
        simp

theorem r3_eq_self {l : List Char} (h : noSTLF l) : r3 l = l := by
  have := r3aux_eq l [] (by simp) h
  simpa [r3] using this

/-! noLF3: established by stage 4, preserved by trimming. -/

theorem noLF3_tail {c : Char} {l : List Char} (h : noLF3 (c :: l)) : noLF3 l := by
  intro i hi
  exact h (i + 1) (by simpa using hi)

theorem headNLs_le_two {l : List Char} (h : noLF3 l) : headNLs l ≤ 2 := by
  rcases l with _ | ⟨a, _ | ⟨b, _ | ⟨c, rest⟩⟩⟩
  · simp [headNLs]
  · by_cases ha : a = '\n' <;> simp [headNLs, ha]
  · by_cases ha : a = '\n'
    · by_cases hb : b = '\n' <;> simp [headNLs, ha, hb]
    · simp [headNLs, ha]
  · by_cases ha : a = '\n'
    · by_cases hb : b = '\n'
      · by_cases hc : c = '\n'
        · exact absurd ⟨by simp [ha], by simp [hb], by simp [hc]⟩ (h 0)
        · subst ha; subst hb; simp [headNLs, hc]
      · subst ha; simp [headNLs, hb]
    · simp [headNLs, ha]

theorem emitNL_length_le (k : Nat) : (emitNL k).length ≤ 2 := by
  rw [emitNL, List.length_replicate]
  split <;> omega

theorem r4aux_eq :
    ∀ (l : List Char) (k : Nat), k + headNLs l ≤ 2 → noLF3 l →
      r4aux k l = List.replicate k '\n' ++ l := by
  intro l
  induction l with
  | nil =>
    intro k hk _
    rw [r4aux, emitNL, List.append_nil, if_neg (by simp [headNLs] at hk; omega)]
  | cons a rest ih =>
    intro k hk h
    rw [r4aux]
    by_cases hnl : a = '\n'
    · rw [if_pos hnl]
      have hk2 : (k + 1) + headNLs rest ≤ 2 := by
        rw [hnl] at hk
        simp only [headNLs] at hk
        omega
      rw [ih (k + 1) hk2 (noLF3_tail h), List.replicate_succ' k '\n', hnl]
      simp
    · rw [if_neg hnl]
      have hk0 : k ≤ 2 := by omega
      have hrest : headNLs rest ≤ 2 := headNLs_le_two (noLF3_tail h)
      rw [ih 0 (by omega) (noLF3_tail h)]
      rw [emitNL, if_neg (by omega)]
      simp

theorem r4_eq_self {l : List Char} (h : noLF3 l) : r4 l = l := by
  have hl : headNLs l ≤ 2 := headNLs_le_two h
  have := r4aux_eq l 0 (by omega) h
  simpa [r4] using this

theorem noLF3_r4aux : ∀ (l : List Char) (k : Nat), noLF3 (r4aux k l) := by
  intro l
  induction l with
  | nil =>
    intro k i hi
    have h2 := hi.2.2
    rw [show r4aux k [] = emitNL k from rfl] at h2
    have hlt := (List.getElem?_eq_some_iff.mp h2).1
    have hle := emitNL_length_le k
    omega
  | cons a rest ih =>
    intro k
    rw [r4aux]
    by_cases hnl : a = '\n'
    · rw [if_pos hnl]
      exact ih (k + 1)
    · rw [if_neg hnl]
      intro i hi
      obtain ⟨h0, h1, h2⟩ := hi
      have hp : (emitNL k).length ≤ 2 := emitNL_length_le k
      set p := (emitNL k).length with hpdef
      have hc : (emitNL k ++ a :: r4aux 0 rest)[p]? = some a := by
        rw [List.getElem?_append_right (le_refl p)]
        simp
      have hL : ∀ n, p + 1 ≤ n →
          (emitNL k ++ a :: r4aux 0 rest)[n]? = (r4aux 0 rest)[n - p - 1]? := by
        intro n hn
        rw [List.getElem?_append_right (by omega)]
        have hs : n - p = (n - p - 1) + 1 := by omega
        rw [hs]
        simp
      rcases Nat.lt_trichotomy p i with hpi | hpi | hpi
      · have e0 := hL i (by omega)
        have e1 := hL (i + 1) (by omega)
        have e2 := hL (i + 2) (by omega)
        rw [e0] at h0; rw [e1] at h1; rw [e2] at h2
        have harith1 : i + 1 - p - 1 = (i - p - 1) + 1 := by omega
        have harith2 : i + 2 - p - 1 = (i - p - 1) + 2 := by omega
        rw [harith1] at h1; rw [harith2] at h2
        exact ih 0 (i - p - 1) ⟨h0, h1, h2⟩
      · rw [hpi] at hc
        have := hc.symm.trans h0
        simp at this
        exact hnl this
      · rcases Nat.lt_trichotomy p (i + 1) with hpi1 | hpi1 | hpi1
        · omega
        · rw [hpi1] at hc
          have := hc.symm.trans h1
          simp at this
          exact hnl this
        · rcases Nat.lt_trichotomy p (i + 2) with hpi2 | hpi2 | hpi2
          · omega
          · rw [hpi2] at hc
            have := hc.symm.trans h2
            simp at this
            exact hnl this
          · omega

theorem noLF3_r4 (l : List Char) : noLF3 (r4 l) := noLF3_r4aux l 0

theorem noLF3_dropWhile {l : List Char} (p : Char → Bool)
    (h : noLF3 l) : noLF3 (l.dropWhile p) := by
  induction l with
  | nil => exact h
  | cons a rest ih =>
    by_cases hp : p a
    · rw [List.dropWhile_cons_of_pos hp]
      exact ih (noLF3_tail h)
    · rw [List.dropWhile_cons_of_neg hp]
      exact h

theorem getElem?_append_left_of_lt {l1 l2 : List Char} {i : Nat} (h : i < l1.length) :
    (l1 ++ l2)[i]? = l1[i]? := by
  rw [List.getElem?_append, if_pos h]

theorem noLF3_trimEnd {l : List Char} (h : noLF3 l) : noLF3 (trimEnd l) := by
  intro i hi
  obtain ⟨h0, h1, h2⟩ := hi
  have hlen := (List.getElem?_eq_some_iff.mp h2).1
  have happ := trimEnd_append l
  refine h i ⟨?_, ?_, ?_⟩
  · rw [happ, getElem?_append_left_of_lt (by omega)]; exact h0
  · rw [happ, getElem?_append_left_of_lt (by omega)]; exact h1
  · rw [happ, getElem?_append_left_of_lt (by omega)]; exact h2

theorem noLF3_jsTrim {l : List Char} (h : noLF3 l) : noLF3 (jsTrim l) :=
  noLF3_trimEnd (noLF3_dropWhile isWS h)

/-! Trim idempotence. -/

theorem dropWhile_dropWhile_self (p : Char → Bool) (l : List Char) :
    (l.dropWhile p).dropWhile p = l.dropWhile p := by
  rcases he : l.dropWhile p with _ | ⟨a, t⟩
  · rfl
  · have ha : p a = false := head_dropWhile_false p l a (by rw [he]; rfl)
    rw [List.dropWhile_cons_of_neg (by simp [ha])]

theorem trimEnd_reverse_eq (w : List Char) :
    (trimEnd w).reverse = w.reverse.dropWhile isWS := by
  rw [trimEnd, List.reverse_reverse]

theorem trimEnd_trimEnd (w : List Char) : trimEnd (trimEnd w) = trimEnd w := by
  have h1 : trimEnd (trimEnd w) = ((trimEnd w).reverse.dropWhile isWS).reverse := rfl
  rw [h1, trimEnd_reverse_eq, dropWhile_dropWhile_self]
  rw [← trimEnd_reverse_eq, List.reverse_reverse]

theorem jsTrim_jsTrim (l : List Char) : jsTrim (jsTrim l) = jsTrim l := by
  have h1 : jsTrim (jsTrim l) = trimEnd ((jsTrim l).dropWhile isWS) := rfl
  rw [h1, dropWhile_jsTrim]
  show trimEnd (trimEnd (l.dropWhile isWS)) = jsTrim l
  rw [trimEnd_trimEnd]
  rfl

/-! Character-level facts about the full pipeline output. -/

theorem mem_pipeline {c : Char} {d : List Char}
    (h : c ∈ jsTrim (r4 (r3 (r2 (r1 d))))) : c ∈ d ∨ c = ' ' ∨ c = '\n' := by
  have h4 : c ∈ r4 (r3 (r2 (r1 d))) := (jsTrim_sublist _).mem h
  rcases mem_r4aux h4 with h | h3
  · right; right; exact h
  · rcases mem_r3aux h3 with h | h2
    · exact absurd h (List.not_mem_nil c)
    · rcases mem_r2 h2 with h1 | h
      · left; exact mem_r1 h1
      · right; left; exact h

theorem not_nbsp_pipeline {c : Char} {d : List Char}
    (h : c ∈ jsTrim (r4 (r3 (r2 (r1 d))))) : c ≠ nbsp := by
  have h4 : c ∈ r4 (r3 (r2 (r1 d))) := (jsTrim_sublist _).mem h
  rcases mem_r4aux h4 with h | h3
  · rw [h]; decide
  · rcases mem_r3aux h3 with h | h2
    · exact absurd h (List.not_mem_nil c)
    · exact not_nbsp_mem_r2 h2

/-- C7 counterexample: normalize is not idempotent — the CRLF replacement
in "a\r\r\nb" produces a fresh CRLF pair, so a second pass differs. -/
theorem normalize_not_idempotent :
    normalizeText "a\r\r\nb" = "a\r\nb" ∧
    normalizeText (normalizeText "a\r\r\nb") = "a\nb" ∧
    normalizeText (normalizeText "a\r\r\nb") ≠ normalizeText "a\r\r\nb" := by
  exact ⟨by decide, by decide, by decide⟩

/-- C7 amended: normalize is idempotent on every input that contains no
carriage-return character. -/
theorem normalize_idempotent_no_cr (s : String) (h : '\r' ∉ s.data) :
    normalizeText (normalizeText s) = normalizeText s := by
  have hmain :
      jsTrim (r4 (r3 (r2 (r1 (jsTrim (r4 (r3 (r2 (r1 s.data))))))))) =
        jsTrim (r4 (r3 (r2 (r1 s.data)))) := by
    set y := jsTrim (r4 (r3 (r2 (r1 s.data)))) with hy
    have hcr : '\r' ∉ y := by
      intro hm
      rcases mem_pipeline hm with hm | hm | hm
      · exact h hm
      · exact absurd hm (by decide)
      · exact absurd hm (by decide)
    have hnb : ∀ c ∈ y, c ≠ nbsp := fun c hc => not_nbsp_pipeline hc
    have e1 : r1 y = y := r1_eq_self_cr hcr
    have e2 : r2 y = y := r2_eq_self hnb
    have e3 : r3 y = y := by
      refine r3_eq_self ?_
      rw [hy]
      exact noSTLF_jsTrim (noSTLF_r4aux _ 0 (noSTLF_r3 _))
    have e4 : r4 y = y := by
      refine r4_eq_self ?_
      rw [hy]
      exact noLF3_jsTrim (noLF3_r4 _)
    have e5 : jsTrim y = y := by
      rw [hy]
      exact jsTrim_jsTrim _
    rw [e1, e2, e3, e4, e5]
  show (⟨jsTrim (r4 (r3 (r2 (r1 (normalizeText s).data))))⟩ : String) = normalizeText s
  have hdata : (normalizeText s).data = jsTrim (r4 (r3 (r2 (r1 s.data)))) := rfl
  rw [hdata, hmain]
  rfl

/-- C7 witness: a concrete carriage-return-free input. -/
theorem normalize_idempotent_no_cr_witness :
    '\r' ∉ ("a  \n\n\n\nb" : String).data ∧
    normalizeText (normalizeText "a  \n\n\n\nb") = normalizeText "a  \n\n\n\nb" :=
  ⟨by decide, normalize_idempotent_no_cr _ (by decide)⟩

/-- C1 witness: concrete records with non-empty chapter ids. -/
theorem reconciliation_convergence_witness :
    ({ lastChapterId := "7", updatedAt := some 300 } : ReaderProgress).lastChapterId ≠ "" ∧
    (reconcileProgress (some { lastChapterId := "7", updatedAt := some 300 })
        (some { lastChapterId := "4", updatedAt := some 20 }) 500).2.map
          (fun p => p.lastChapterId)
      = some (progressWinner { lastChapterId := "7", updatedAt := some 300 }
          { lastChapterId := "4", updatedAt := some 20 }).lastChapterId :=
  ⟨by decide,
   (reconciliation_convergence
      { theme := "light", font := "sans", fontSize := 18, updatedAt := some 3 }
      { theme := "dark", font := "noto", fontSize := 20, updatedAt := some 9 }
      { lastChapterId := "7", updatedAt := some 300 }
      { lastChapterId := "4", updatedAt := some 20 } 500
      (by decide) (by decide)).2.2.2.1.2⟩

end ThoRen
